import Mathlib

/- Shallow embedding of the M2 communication core of onyx-m2-dashboard
   (src/contexts/M2.js): the envelope codec over JSON text frames, the freeze
   gate in front of the event dispatcher, the ping/pong heartbeat tick, and
   the status tracker. -/

/-- JSON values, the payloads representable in the wire format. Numbers are
modelled as integers (the dashboard's status payloads carry integral
latency/rate values); floating point is outside the embedding. -/
inductive Json where
| null : Json
| bool (b : Bool) : Json
| num (n : Int) : Json
| str (s : String) : Json
| arr (elems : List Json) : Json
| obj (fields : List (String × Json)) : Json

/-- JSON string escaping: quote and backslash are escaped with a backslash;
every other character is emitted literally. -/
def escChars : List Char → List Char
| [] => []
| c :: cs =>
    if c = '"' then '\\' :: '"' :: escChars cs
    else if c = '\\' then '\\' :: '\\' :: escChars cs
    else c :: escChars cs

/-- Decimal digits of a natural number, most significant first. -/
def natToChars (n : Nat) : List Char :=
  if _h : n < 10 then [Nat.digitChar n]
  else natToChars (n / 10) ++ [Nat.digitChar (n % 10)]
termination_by n
decreasing_by exact Nat.div_lt_self (by omega) (by omega)

/-- Decimal rendering of an integer, with a leading minus sign when negative. -/
def intChars : Int → List Char
| .ofNat n => natToChars n
| .negSucc m => '-' :: natToChars (m + 1)

mutual

/-- Render a JSON value to wire-frame characters: the model of the host
runtime's JSON.stringify, which emits no whitespace. -/
def render : Json → List Char
| .null => 'n' :: ['u', 'l', 'l']
| .bool b => if b then 't' :: ['r', 'u', 'e'] else 'f' :: ['a', 'l', 's', 'e']
| .num n => intChars n
| .str s => '"' :: (escChars s.data ++ ['"'])
| .arr es => '[' :: (renderItems es ++ [']'])
| .obj fs => '\x7b' :: (renderFields fs ++ ['\x7d'])

/-- Render the comma-separated elements of a JSON array. -/
def renderItems : List Json → List Char
| [] => []
| [x] => render x
| x :: y :: xs => render x ++ ',' :: renderItems (y :: xs)

/-- Render the comma-separated key/value fields of a JSON object. -/
def renderFields : List (String × Json) → List Char
| [] => []
| [(k, v)] => '"' :: (escChars k.data ++ '"' :: ':' :: render v)
| (k, v) :: f :: fs =>
    ('"' :: (escChars k.data ++ '"' :: ':' :: render v)) ++ ',' :: renderFields (f :: fs)

end

/-- Parse the body of a JSON string literal up to the closing quote,
unescaping backslash sequences; returns the contents and the tail. -/
def parseStrBody : List Char → Option (List Char × List Char)
| [] => none
| c :: rest =>
    if c = '"' then some ([], rest)
    else if c = '\\' then
      match rest with
      | [] => none
      | c2 :: rest2 => (parseStrBody rest2).map (fun p => (c2 :: p.1, p.2))
    else (parseStrBody rest).map (fun p => (c :: p.1, p.2))

/-- Consume a run of decimal digits, accumulating their value onto `acc`. -/
def parseDigitsAux (acc : Nat) : List Char → Nat × List Char
| [] => (acc, [])
| c :: cs =>
    if c.isDigit then parseDigitsAux (acc * 10 + (c.toNat - 48)) cs
    else (acc, c :: cs)

mutual

/-- Fueled recursive-descent parser for the wire format (the model of the
host runtime's JSON.parse); returns the value and the unconsumed tail. -/
def parseVal : Nat → List Char → Option (Json × List Char)
| 0, _ => none
| _ + 1, [] => none
| fuel + 1, c :: rest =>
    if c = 'n' then
      match rest with
      | 'u' :: 'l' :: 'l' :: rest2 => some (.null, rest2)
      | _ => none
    else if c = 't' then
      match rest with
      | 'r' :: 'u' :: 'e' :: rest2 => some (.bool true, rest2)
      | _ => none
    else if c = 'f' then
      match rest with
      | 'a' :: 'l' :: 's' :: 'e' :: rest2 => some (.bool false, rest2)
      | _ => none
    else if c = '"' then
      (parseStrBody rest).map (fun p => (.str (String.mk p.1), p.2))
    else if c = '[' then
      match rest with
      | [] => none
      | c2 :: rest2 =>
          if c2 = ']' then some (.arr [], rest2)
          else (parseItems fuel (c2 :: rest2)).map (fun p => (.arr p.1, p.2))
    else if c = '\x7b' then
      match rest with
      | [] => none
      | c2 :: rest2 =>
          if c2 = '\x7d' then some (.obj [], rest2)
          else (parseFields fuel (c2 :: rest2)).map (fun p => (.obj p.1, p.2))
    else if c = '-' then
      match rest with
      | [] => none
      | c2 :: rest2 =>
          if c2.isDigit then
            let p := parseDigitsAux 0 (c2 :: rest2)
            some (.num (-(p.1 : Int)), p.2)
          else none
    else if c.isDigit then
      let p := parseDigitsAux 0 (c :: rest)
      some (.num (p.1 : Int), p.2)
    else none

/-- Parse the elements of a non-empty JSON array after the opening bracket. -/
def parseItems : Nat → List Char → Option (List Json × List Char)
| 0, _ => none
| fuel + 1, cs =>
    match parseVal fuel cs with
    | none => none
    | some (j, rest) =>
      match rest with
      | ',' :: rest2 =>
          match parseItems fuel rest2 with
          | none => none
          | some (js, rest3) => some (j :: js, rest3)
      | ']' :: rest2 => some ([j], rest2)
      | _ => none

/-- Parse the fields of a non-empty JSON object after the opening brace. -/
def parseFields : Nat → List Char → Option (List (String × Json) × List Char)
| 0, _ => none
| fuel + 1, cs =>
    match cs with
    | '"' :: cs2 =>
      match parseStrBody cs2 with
      | none => none
      | some (k, rest) =>
        match rest with
        | ':' :: rest2 =>
          match parseVal fuel rest2 with
          | none => none
          | some (v, rest3) =>
            match rest3 with
            | ',' :: rest4 =>
                match parseFields fuel rest4 with
                | none => none
                | some (fs, rest5) => some ((String.mk k, v) :: fs, rest5)
            | '\x7d' :: rest4 => some ([(String.mk k, v)], rest4)
            | _ => none
        | _ => none
    | _ => none

end

/-- Run the parser on a whole text frame; succeeds only when the frame is
exactly one JSON value with nothing left over. -/
def Json.parse? (text : String) : Option Json :=
  match parseVal (text.data.length + 1) text.data with
  | some (j, []) => some j
  | _ => none

/-- Serialize a JSON value to a text frame (the model of JSON.stringify). -/
def Json.stringify (j : Json) : String := String.mk (render j)

mutual

/-- JS ToString coercion as applied by the CustomEvent constructor to the
decoded event-name value. -/
def jsToString : Json → String
| .null => "null"
| .bool true => "true"
| .bool false => "false"
| .num n => String.mk (intChars n)
| .str s => s
| .arr es => jsArrayToString es
| .obj _ => "[object Object]"

/-- JS Array.prototype.toString: elements joined by commas, with null
elements rendered empty. -/
def jsArrayToString : List Json → String
| [] => ""
| [.null] => ""
| [x] => jsToString x
| .null :: y :: xs => "," ++ jsArrayToString (y :: xs)
| x :: y :: xs => jsToString x ++ "," ++ jsArrayToString (y :: xs)

end

/-- Lookup of a key among parsed object fields, keeping the last duplicate
as JSON.parse does. -/
def lookupLast (key : String) : List (String × Json) → Option Json
| [] => none
| (k, v) :: rest =>
    match lookupLast key rest with
    | some r => some r
    | none => if k = key then some v else none

/-- JS property read on a parsed JSON value: objects yield the value at the
key, every other non-null value yields undefined (none). -/
def jsGet (j : Json) (key : String) : Option Json :=
  match j with
  | .obj fs => lookupLast key fs
  | _ => none

/-- A decoded envelope: the CustomEvent the M2 provider builds. `event` is
the event name after the constructor's DOMString coercion and `data` the
detail payload (none when the frame carried no data field). -/
structure Envelope where
  event : String
  data : Option Json

/-- DOMString coercion of the event-name argument: a missing field
(undefined) coerces to the string "undefined". -/
def jsToDOMString : Option Json → String
| none => "undefined"
| some j => jsToString j

/-- Decode one inbound text frame as handleMessage does (src lines 23-24):
JSON.parse the text, then read payload.event and payload.data. Fails (the
catch branch) when the text is not valid JSON, or when the parsed payload
is null, whose property access throws. -/
def decodeFrame (text : String) : Option Envelope :=
  match Json.parse? text with
  | none => none
  | some .null => none
  | some payload => some ⟨jsToDOMString (jsGet payload "event"), jsGet payload "data"⟩

/-- Outbound send (src lines 40-42): JSON.stringify of the object literal
with keys event and data, where an undefined data value makes
JSON.stringify omit the key. -/
def send (event : String) (data : Option Json) : String :=
  Json.stringify (.obj (("event", .str event) ::
    (match data with
     | some d => [("data", d)]
     | none => [])))

/-- The M2 provider's mutable closure state: the frozen flag and the frozen
event queue (src lines 17-18). -/
structure M2State where
  frozen : Bool
  frozenEventQ : List Envelope

/-- Reaction of the environment to one dispatched envelope during a drain:
the dispatched handler may re-engage the gate (call freeze(true)), and
further inbound envelopes may arrive while the drain runs. -/
structure Reaction where
  reengage : Bool
  arrivals : List Envelope

/-- The drain loop of freeze(false) (src lines 46-50): dispatch the head of
the queue, apply the environment's reaction, and continue until the queue
is empty. An envelope arriving while the flag is still false is dispatched
immediately; one arriving after a re-engage is appended to the queue and
picked up by the same loop. Returns the dispatch log and the final flag;
an empty reaction script means the remaining queue drains undisturbed. -/
def drainQ : List Envelope → List Reaction → Bool → List Envelope × Bool
| q, [], fz => (q, fz)
| [], _ :: _, fz => ([], fz)
| e :: q, r :: rs, fz =>
    let fz2 := fz || r.reengage
    if fz2 then
      let d := drainQ (q ++ r.arrivals) rs fz2
      (e :: d.1, d.2)
    else
      let d := drainQ q rs fz2
      (e :: (r.arrivals ++ d.1), d.2)

/-- The provider's freeze function (src lines 44-51): set the flag to the
argument, and when unfreezing drain the queue through the dispatcher. The
reaction script models what the dispatched handlers and the environment do
during the drain. Returns the new state and the envelopes dispatched. -/
def freeze (_frozen : Bool) (script : List Reaction) (s : M2State) : M2State × List Envelope :=
  if _frozen then ({ s with frozen := true }, [])
  else
    let d := drainQ s.frozenEventQ script false
    (⟨d.2, []⟩, d.1)

/-- The provider's inbound message handler (src lines 21-35): decode the
frame; on success append the envelope to the frozen queue or dispatch it
immediately; on failure report the parse error and leave all state
untouched. Returns the new state, the envelopes dispatched, and the
reported error if any. -/
def handleMessage (text : String) (s : M2State) : M2State × List Envelope × Option String :=
  match decodeFrame text with
  | none => (s, [], some ("Cannot parse message from M2: " ++ text))
  | some m2Event =>
      if s.frozen then ({ s with frozenEventQ := s.frozenEventQ ++ [m2Event] }, [], none)
      else (s, [m2Event], none)

/-- Process a sequence of inbound frames, collecting every dispatched
envelope in order. -/
def processFrames : List String → M2State → M2State × List Envelope
| [], s => (s, [])
| f :: fs, s =>
    let r := handleMessage f s
    let rest := processFrames fs r.1
    (rest.1, r.2.1 ++ rest.2)

/-- States of the freeze gate reachable from the provider's initial state
(flowing, empty queue) through inbound messages and freeze calls. -/
inductive Reachable : M2State → Prop where
| init : Reachable ⟨false, []⟩
| msg (frame : String) (s : M2State) : Reachable s → Reachable (handleMessage frame s).1
| gate (b : Bool) (script : List Reaction) (s : M2State) :
    Reachable s → Reachable (freeze b script s).1

/-- All envelopes a reaction script injects into the drain. -/
def arrivalsOf : List Reaction → List Envelope
| [] => []
| r :: rs => r.arrivals ++ arrivalsOf rs

/-- Decode a sequence of inbound frames; succeeds when every frame decodes. -/
def decodeFrames : List String → Option (List Envelope)
| [] => some []
| f :: fs =>
    match decodeFrame f, decodeFrames fs with
    | some e, some es => some (e :: es)
    | _, _ => none

/-- The ping/pong hook's per-tick session state (src lines 74-76): `pingAt`
models the local `at`, the send time of the outstanding probe (0 when none
is outstanding); `previousCheck` is the wall-clock time of the previous
tick; `connected` the reported flag. -/
structure PingState where
  pingAt : Int
  previousCheck : Int
  connected : Bool
deriving DecidableEq

/-- Observable actions of one heartbeat tick. -/
inductive PingAction where
| sendPing : PingAction
| reconnect : PingAction
deriving DecidableEq

/-- One interval tick of usePingPongState (src lines 77-91), at wall-clock
time `now`: when a probe is outstanding and the gap since the previous
tick exceeds twice the frequency, the channel is declared disconnected and
reconnected if the probe is at least `timeout` old (and nothing happens
otherwise); in every other case a fresh probe is stamped and sent. -/
def pingPongTick (frequency timeout : Int) (now : Int) (s : PingState) :
    PingState × List PingAction :=
  if s.pingAt ≠ 0 ∧ now - s.previousCheck > 2 * frequency then
    if now - s.pingAt ≥ timeout then
      (⟨0, now, false⟩, [.reconnect])
    else
      ({ s with previousCheck := now }, [])
  else
    (⟨now, now, s.connected⟩, [.sendPing])

/-- The usePingPongState hook setup (src lines 68-91): zero latency, not
connected, no probe outstanding, interval started at the given frequency.
The hook performs no validation of its frequency/timeout configuration;
the Option result records whether the configuration was rejected, and the
code never rejects it. -/
def usePingPongSetup (frequency timeout : Int) (now : Int) :
    Option (Int × Int × PingState) :=
  some (frequency, timeout, ⟨0, now, false⟩)

/-- Run n heartbeat ticks on a perfectly regular schedule (tick i at time
i·frequency) starting from the hook's setup state at time 0, with no pong
ever delivered; collects the actions of every tick. -/
def regularTicks (frequency timeout : Int) : Nat → PingState × List PingAction
| 0 => (⟨0, 0, false⟩, [])
| n + 1 =>
    let p := regularTicks frequency timeout n
    let t := pingPongTick frequency timeout (((n + 1 : Nat) : Int) * frequency) p.1
    (t.1, p.2 ++ t.2)

/-- The useStatusState hook's tracked state (src lines 117-120). -/
structure StatusState where
  online : Bool
  ignoreOnlineStatus : Bool
  latency : Int
  rate : Int
deriving DecidableEq

/-- A status event payload: the [online, latency, rate] triple carried in
the event detail (src line 133). -/
structure StatusEvent where
  online : Bool
  latency : Int
  rate : Int

/-- The forceOnlineKey hotkey handler (src lines 122-125). -/
def forceOnline (s : StatusState) : StatusState :=
  { s with ignoreOnlineStatus := true, online := true }

/-- The forceOfflineKey hotkey handler (src lines 127-130). -/
def forceOffline (s : StatusState) : StatusState :=
  { s with ignoreOnlineStatus := true, online := false }

/-- The status event handler as written (src lines 133-139): latency and
rate update unconditionally; online updates only when the
`ignoreOnlineStatus` value the handler's closure holds is unset. The
parameter `ignoreOnlineStatus` is the value captured by that closure, which
is fixed when the handler is registered, not the live state field. -/
def handleStatus (ignoreOnlineStatus : Bool) (s : StatusState) (e : StatusEvent) : StatusState :=
  { online := if ignoreOnlineStatus then s.online else e.online,
    ignoreOnlineStatus := s.ignoreOnlineStatus,
    latency := e.latency,
    rate := e.rate }

/-- The status handler the program actually has registered: the effect that
registers it has dependency array [ws] (src line 142) and ws is a stable
module import, so the effect runs once at mount, when `ignoreOnlineStatus`
still holds its useState(false) initial value; the registered closure
therefore reads `false` forever, regardless of later
setIgnoreOnlineStatus(true) calls from the hotkey handlers. -/
def mountStatusHandler : StatusState → StatusEvent → StatusState :=
  handleStatus false

/-- A character list that does not begin with a decimal digit: the side
condition under which the number parser stops in the right place. -/
def NonDigitStart : List Char → Prop
| [] => True
| c :: _ => c.isDigit = false

mutual

/-- Fuel measure for the parser: the number of values and list steps the
parser descends through while reading a rendered value. -/
def jsize : Json → Nat
| .arr es => 1 + jsizeItems es
| .obj fs => 1 + jsizeFields fs
| _ => 1

/-- Fuel measure for parsing the elements of an array. -/
def jsizeItems : List Json → Nat
| [] => 0
| x :: xs => 1 + jsize x + jsizeItems xs

/-- Fuel measure for parsing the fields of an object. -/
def jsizeFields : List (String × Json) → Nat
| [] => 0
| kv :: fs => 1 + jsize kv.2 + jsizeFields fs

end

/-- Round-trip property of a single value: rendering then parsing returns
the value and the untouched tail, for any sufficient fuel and any tail not
starting with a digit. -/
def ParseValGood (j : Json) : Prop :=
  ∀ fuel rest, jsize j ≤ fuel → NonDigitStart rest →
    parseVal fuel (render j ++ rest) = some (j, rest)

theorem parseStrBody_cons (c : Char) (rest : List Char) :
    parseStrBody (c :: rest) =
      if c = '"' then some ([], rest)
      else if c = '\\' then
        match rest with
        | [] => none
        | c2 :: rest2 => (parseStrBody rest2).map (fun p => (c2 :: p.1, p.2))
      else (parseStrBody rest).map (fun p => (c :: p.1, p.2)) := by
  rw [parseStrBody.eq_def]

theorem parseStrBody_escChars (cs : List Char) : ∀ rest,
    parseStrBody (escChars cs ++ '"' :: rest) = some (cs, rest) := by
  induction cs with
  | nil => intro rest; simp [escChars, parseStrBody_cons]
  | cons c cs ih =>
      intro rest
      by_cases h1 : c = '"'
      · subst h1
        have he : escChars ('"' :: cs) = '\\' :: '"' :: escChars cs := by simp [escChars]
        rw [he, List.cons_append, List.cons_append, parseStrBody_cons]
        simp [ih]
      · by_cases h2 : c = '\\'
        · subst h2
          have he : escChars ('\\' :: cs) = '\\' :: '\\' :: escChars cs := by simp [escChars]
          rw [he, List.cons_append, List.cons_append, parseStrBody_cons]
          simp [ih]
        · have he : escChars (c :: cs) = c :: escChars cs := by simp [escChars, h1, h2]
          rw [he, List.cons_append, parseStrBody_cons, if_neg h1, if_neg h2, ih]
          rfl

theorem digitChar_isDigit (d : Nat) (h : d < 10) : (Nat.digitChar d).isDigit = true := by
  interval_cases d <;> decide

theorem digitChar_val (d : Nat) (h : d < 10) : (Nat.digitChar d).toNat - 48 = d := by
  interval_cases d <;> decide

theorem parseDigitsAux_stop (acc : Nat) (rest : List Char) (h : NonDigitStart rest) :
    parseDigitsAux acc rest = (acc, rest) := by
  cases rest with
  | nil => rfl
  | cons c cs =>
      have hc : c.isDigit = false := h
      simp [parseDigitsAux, hc]

theorem natToChars_spec (n : Nat) : ∃ c cs, natToChars n = c :: cs ∧ c.isDigit = true := by
  induction n using natToChars.induct with
  | case1 n h =>
      rw [natToChars, dif_pos h]
      exact ⟨Nat.digitChar n, [], rfl, digitChar_isDigit n h⟩
  | case2 n h ih =>
      rw [natToChars, dif_neg h]
      obtain ⟨c, cs, hc, hd⟩ := ih
      rw [hc]
      exact ⟨c, cs ++ [Nat.digitChar (n % 10)], rfl, hd⟩

theorem parseDigitsAux_natToChars (n : Nat) : ∀ (acc : Nat) (rest : List Char),
    ∃ k, 0 < k ∧
      parseDigitsAux acc (natToChars n ++ rest) = parseDigitsAux (acc * 10 ^ k + n) rest := by
  induction n using natToChars.induct with
  | case1 n h =>
      intro acc rest
      refine ⟨1, one_pos, ?_⟩
      rw [natToChars, dif_pos h]
      simp [parseDigitsAux, digitChar_isDigit n h, digitChar_val n h]
  | case2 n h ih =>
      intro acc rest
      obtain ⟨k, hk, hrec⟩ := ih acc (Nat.digitChar (n % 10) :: rest)
      refine ⟨k + 1, by omega, ?_⟩
      rw [natToChars, dif_neg h, List.append_assoc, List.cons_append, List.nil_append, hrec]
      have hd : (Nat.digitChar (n % 10)).isDigit = true := digitChar_isDigit _ (Nat.mod_lt _ (by omega))
      have hv : (Nat.digitChar (n % 10)).toNat - 48 = n % 10 := digitChar_val _ (Nat.mod_lt _ (by omega))
      simp only [parseDigitsAux, hd, if_true, hv]
      have harith : (acc * 10 ^ k + n / 10) * 10 + n % 10 = acc * 10 ^ (k + 1) + n := by
        calc (acc * 10 ^ k + n / 10) * 10 + n % 10
            = acc * (10 ^ k * 10) + (10 * (n / 10) + n % 10) := by ring
          _ = acc * 10 ^ (k + 1) + n := by rw [Nat.div_add_mod, ← pow_succ]
      rw [harith]

theorem parseDigits_natToChars (n : Nat) (rest : List Char) (h : NonDigitStart rest) :
    parseDigitsAux 0 (natToChars n ++ rest) = (n, rest) := by
  obtain ⟨k, _, heq⟩ := parseDigitsAux_natToChars n 0 rest
  rw [heq]
  simp only [Nat.zero_mul, Nat.zero_add]
  exact parseDigitsAux_stop n rest h

/-- Structural induction over JSON values with member hypotheses for the
nested element and field lists. -/
theorem Json.recAll (P : Json → Prop)
    (hnull : P .null) (hbool : ∀ b, P (.bool b)) (hnum : ∀ n, P (.num n))
    (hstr : ∀ s, P (.str s))
    (harr : ∀ es, (∀ x ∈ es, P x) → P (.arr es))
    (hobj : ∀ fs, (∀ kv ∈ fs, P kv.2) → P (.obj fs)) : ∀ j, P j := by
  have main : ∀ n (j : Json), sizeOf j ≤ n → P j := by
    intro n
    induction n with
    | zero =>
        intro j hj
        exfalso
        cases j <;> simp_all
    | succ n ih =>
        intro j hj
        cases j with
        | null => exact hnull
        | bool b => exact hbool b
        | num m => exact hnum m
        | str s => exact hstr s
        | arr es =>
            refine harr es (fun x hx => ih x ?_)
            have h1 := List.sizeOf_lt_of_mem hx
            have h2 : sizeOf (Json.arr es) = 1 + sizeOf es := by simp
            omega
        | obj fs =>
            refine hobj fs (fun kv hkv => ih kv.2 ?_)
            have h1 := List.sizeOf_lt_of_mem hkv
            have h2 : sizeOf (Json.obj fs) = 1 + sizeOf fs := by simp
            have h3 : sizeOf kv.2 < sizeOf kv := by
              obtain ⟨k, v⟩ := kv
              simp
            omega
  exact fun j => main (sizeOf j) j le_rfl

theorem ne_of_isDigit (c d : Char) (h : c.isDigit = true) (hd : d.isDigit = false) :
    c ≠ d := by
  intro he
  subst he
  rw [h] at hd
  cases hd

theorem render_head_ne_rbracket (j : Json) : ∃ c cs, render j = c :: cs ∧ c ≠ ']' := by
  cases j with
  | null => exact ⟨'n', _, rfl, by decide⟩
  | bool b => cases b with
      | true => exact ⟨'t', _, rfl, by decide⟩
      | false => exact ⟨'f', _, rfl, by decide⟩
  | num n => cases n with
      | ofNat m =>
          obtain ⟨c, cs, hc, hd⟩ := natToChars_spec m
          exact ⟨c, cs, by simp [render, intChars, hc], ne_of_isDigit c ']' hd (by decide)⟩
      | negSucc m =>
          exact ⟨'-', natToChars (m + 1), by simp [render, intChars], by decide⟩
  | str s => exact ⟨'"', _, rfl, by decide⟩
  | arr es => exact ⟨'[', _, rfl, by decide⟩
  | obj fs => exact ⟨'\x7b', _, rfl, by decide⟩

theorem ndNil : NonDigitStart [] := trivial

theorem ndCons (c : Char) (t : List Char) (h : c.isDigit = false) : NonDigitStart (c :: t) := h

theorem parseItems_renderItems : ∀ (es : List Json),
    (∀ x ∈ es, ParseValGood x) → es ≠ [] → ∀ fuel rest, jsizeItems es ≤ fuel →
      parseItems fuel (renderItems es ++ ']' :: rest) = some (es, rest) := by
  intro es
  induction es with
  | nil => intro _ hne; cases hne rfl
  | cons x xs ih =>
      intro hP _ fuel rest hfuel
      cases xs with
      | nil =>
          cases fuel with
          | zero => simp [jsizeItems] at hfuel
          | succ f =>
              have hx : jsize x ≤ f := by
                simp only [jsizeItems] at hfuel
                omega
              have hv := hP x (by simp) f (']' :: rest) hx (ndCons ']' rest (by decide))
              simp only [renderItems]
              simp [parseItems, hv]
      | cons y ys =>
          cases fuel with
          | zero => simp [jsizeItems] at hfuel
          | succ f =>
              have hx : jsize x ≤ f := by
                simp only [jsizeItems] at hfuel
                omega
              have hxs : jsizeItems (y :: ys) ≤ f := by
                simp only [jsizeItems] at hfuel ⊢
                omega
              have harr : renderItems (x :: y :: ys) ++ ']' :: rest
                  = render x ++ (',' :: (renderItems (y :: ys) ++ ']' :: rest)) := by
                simp [renderItems, List.append_assoc]
              rw [harr]
              have hv := hP x (by simp) f (',' :: (renderItems (y :: ys) ++ ']' :: rest)) hx
                (ndCons ',' _ (by decide))
              have hrec := ih (fun z hz => hP z (by simp [hz])) (by simp) f rest hxs
              simp [parseItems, hv, hrec]

theorem parseFields_renderFields : ∀ (fs : List (String × Json)),
    (∀ kv ∈ fs, ParseValGood kv.2) → fs ≠ [] → ∀ fuel rest, jsizeFields fs ≤ fuel →
      parseFields fuel (renderFields fs ++ '\x7d' :: rest) = some (fs, rest) := by
  intro fs
  induction fs with
  | nil => intro _ hne; cases hne rfl
  | cons kv fs ih =>
      obtain ⟨k, v⟩ := kv
      intro hP _ fuel rest hfuel
      cases fs with
      | nil =>
          cases fuel with
          | zero => simp [jsizeFields] at hfuel
          | succ f =>
              have hx : jsize v ≤ f := by
                simp only [jsizeFields] at hfuel
                omega
              have harr : renderFields [(k, v)] ++ '\x7d' :: rest
                  = '"' :: (escChars k.data ++ '"' :: ':' :: (render v ++ '\x7d' :: rest)) := by
                simp [renderFields, List.append_assoc]
              rw [harr]
              have hstr := parseStrBody_escChars k.data (':' :: (render v ++ '\x7d' :: rest))
              have hv := hP (k, v) (by simp) f ('\x7d' :: rest) hx (ndCons '\x7d' rest (by decide))
              simp [parseFields, hstr, hv]
      | cons kv2 fs2 =>
          cases fuel with
          | zero => simp [jsizeFields] at hfuel
          | succ f =>
              have hx : jsize v ≤ f := by
                simp only [jsizeFields] at hfuel
                omega
              have hxs : jsizeFields (kv2 :: fs2) ≤ f := by
                simp only [jsizeFields] at hfuel ⊢
                omega
              have harr : renderFields ((k, v) :: kv2 :: fs2) ++ '\x7d' :: rest
                  = '"' :: (escChars k.data ++ '"' :: ':' ::
                      (render v ++ ',' :: (renderFields (kv2 :: fs2) ++ '\x7d' :: rest))) := by
                simp [renderFields, List.append_assoc]
              rw [harr]
              have hstr := parseStrBody_escChars k.data
                (':' :: (render v ++ ',' :: (renderFields (kv2 :: fs2) ++ '\x7d' :: rest)))
              have hv := hP (k, v) (by simp) f
                (',' :: (renderFields (kv2 :: fs2) ++ '\x7d' :: rest)) hx (ndCons ',' _ (by decide))
              have hrec := ih (fun z hz => hP z (by simp [hz])) (by simp) f rest hxs
              simp [parseFields, hstr, hv, hrec]

theorem renderFields_head (kv : String × Json) (fs : List (String × Json)) :
    ∃ t, renderFields (kv :: fs) = '"' :: t := by
  obtain ⟨k, v⟩ := kv
  cases fs with
  | nil => exact ⟨_, rfl⟩
  | cons kv2 fs2 => exact ⟨_, rfl⟩

theorem renderItems_cons_head (x : Json) (xs : List Json) (rest : List Char) :
    ∃ c t, renderItems (x :: xs) ++ ']' :: rest = c :: t ∧ c ≠ ']' := by
  obtain ⟨ch, ct, hct, hne⟩ := render_head_ne_rbracket x
  cases xs with
  | nil => exact ⟨ch, ct ++ ']' :: rest, by simp [renderItems, hct], hne⟩
  | cons y ys =>
      refine ⟨ch, ct ++ (',' :: renderItems (y :: ys) ++ ']' :: rest), ?_, hne⟩
      simp [renderItems, hct, List.append_assoc]

theorem parseVal_render : ∀ (j : Json), ParseValGood j := by
  refine Json.recAll ParseValGood ?_ ?_ ?_ ?_ ?_ ?_
  · -- null
    intro fuel rest hf _
    cases fuel with
    | zero => simp [jsize] at hf
    | succ f => simp [render, parseVal]
  · -- bool
    intro b fuel rest hf _
    cases fuel with
    | zero => simp [jsize] at hf
    | succ f => cases b <;> simp [render, parseVal]
  · -- num
    intro n fuel rest hf hnd
    cases fuel with
    | zero => simp [jsize] at hf
    | succ f =>
        cases n with
        | ofNat m =>
            obtain ⟨c, cs, hc, hd⟩ := natToChars_spec m
            have hr : render (Json.num (Int.ofNat m)) ++ rest = c :: (cs ++ rest) := by
              simp [render, intChars, hc]
            have h1 : ¬ c = 'n' := ne_of_isDigit c 'n' hd (by decide)
            have h2 : ¬ c = 't' := ne_of_isDigit c 't' hd (by decide)
            have h3 : ¬ c = 'f' := ne_of_isDigit c 'f' hd (by decide)
            have h4 : ¬ c = '"' := ne_of_isDigit c '"' hd (by decide)
            have h5 : ¬ c = '[' := ne_of_isDigit c '[' hd (by decide)
            have h6 : ¬ c = '\x7b' := ne_of_isDigit c '\x7b' hd (by decide)
            have h7 : ¬ c = '-' := ne_of_isDigit c '-' hd (by decide)
            have hback : c :: (cs ++ rest) = natToChars m ++ rest := by
              rw [hc]
              rfl
            have hpd : parseDigitsAux 0 (c :: (cs ++ rest)) = (m, rest) := by
              rw [hback]
              exact parseDigits_natToChars m rest hnd
            rw [hr]
            simp [parseVal, h1, h2, h3, h4, h5, h6, h7, hd, hpd]
        | negSucc m =>
            obtain ⟨c, cs, hc, hd⟩ := natToChars_spec (m + 1)
            have hr : render (Json.num (Int.negSucc m)) ++ rest = '-' :: (c :: (cs ++ rest)) := by
              simp [render, intChars, hc]
            have hback : c :: (cs ++ rest) = natToChars (m + 1) ++ rest := by
              rw [hc]
              rfl
            have hpd : parseDigitsAux 0 (c :: (cs ++ rest)) = (m + 1, rest) := by
              rw [hback]
              exact parseDigits_natToChars (m + 1) rest hnd
            rw [hr]
            simp [parseVal, hd, hpd, Int.negSucc_eq]
  · -- str
    intro s fuel rest hf _
    cases fuel with
    | zero => simp [jsize] at hf
    | succ f =>
        have hr : render (Json.str s) ++ rest = '"' :: (escChars s.data ++ '"' :: rest) := by
          simp [render, List.append_assoc]
        rw [hr]
        simp [parseVal, parseStrBody_escChars]
  · -- arr
    intro es hmem fuel rest hf _
    cases es with
    | nil =>
        cases fuel with
        | zero => simp [jsize, jsizeItems] at hf
        | succ f => simp [render, renderItems, parseVal]
    | cons x xs =>
        cases fuel with
        | zero => simp [jsize] at hf
        | succ f =>
            have hfI : jsizeItems (x :: xs) ≤ f := by
              simp only [jsize] at hf
              omega
            have harr : render (Json.arr (x :: xs)) ++ rest
                = '[' :: (renderItems (x :: xs) ++ ']' :: rest) := by
              simp [render, List.append_assoc]
            obtain ⟨c2, t2, hc2, hne2⟩ := renderItems_cons_head x xs rest
            have hpi : parseItems f (c2 :: t2) = some (x :: xs, rest) := by
              rw [← hc2]
              exact parseItems_renderItems (x :: xs) hmem (by simp) f rest hfI
            rw [harr, hc2]
            simp [parseVal, hne2, hpi]
  · -- obj
    intro fs hmem fuel rest hf _
    cases fs with
    | nil =>
        cases fuel with
        | zero => simp [jsize, jsizeFields] at hf
        | succ f => simp [render, renderFields, parseVal]
    | cons kv fs2 =>
        cases fuel with
        | zero => simp [jsize] at hf
        | succ f =>
            have hfI : jsizeFields (kv :: fs2) ≤ f := by
              simp only [jsize] at hf
              omega
            obtain ⟨t, ht⟩ := renderFields_head kv fs2
            have harr : render (Json.obj (kv :: fs2)) ++ rest
                = '\x7b' :: ('"' :: (t ++ '\x7d' :: rest)) := by
              simp [render, ht, List.append_assoc]
            have hpf : parseFields f ('"' :: (t ++ '\x7d' :: rest)) = some (kv :: fs2, rest) := by
              rw [show ('"' :: (t ++ '\x7d' :: rest))
                    = renderFields (kv :: fs2) ++ '\x7d' :: rest from by rw [ht]; rfl]
              exact parseFields_renderFields (kv :: fs2) hmem (by simp) f rest hfI
            rw [harr]
            simp [parseVal, hpf]

theorem jsizeItems_le (es : List Json) (h : ∀ x ∈ es, jsize x ≤ (render x).length) :
    jsizeItems es ≤ (renderItems es).length + 1 := by
  induction es with
  | nil => simp [jsizeItems, renderItems]
  | cons x xs ih =>
      cases xs with
      | nil =>
          have := h x (by simp)
          simp [jsizeItems, renderItems]
          omega
      | cons y ys =>
          have hx := h x (by simp)
          have hr := ih (fun z hz => h z (by simp [hz]))
          simp [jsizeItems, renderItems] at hr ⊢
          omega

theorem jsizeFields_le (fs : List (String × Json)) (h : ∀ kv ∈ fs, jsize kv.2 ≤ (render kv.2).length) :
    jsizeFields fs ≤ (renderFields fs).length + 1 := by
  induction fs with
  | nil => simp [jsizeFields, renderFields]
  | cons kv fs2 ih =>
      obtain ⟨k, v⟩ := kv
      cases fs2 with
      | nil =>
          have := h (k, v) (by simp)
          simp [jsizeFields, renderFields] at this ⊢
          omega
      | cons kv2 fs3 =>
          have hx := h (k, v) (by simp)
          have hr := ih (fun z hz => h z (by simp [hz]))
          simp [jsizeFields, renderFields] at hx hr ⊢
          omega

theorem jsize_le_render : ∀ j : Json, jsize j ≤ (render j).length := by
  refine Json.recAll _ ?_ ?_ ?_ ?_ ?_ ?_
  · simp [jsize, render]
  · intro b
    cases b <;> simp [jsize, render]
  · intro n
    cases n with
    | ofNat m =>
        obtain ⟨c, cs, hc, _⟩ := natToChars_spec m
        simp [jsize, render, intChars, hc]
    | negSucc m => simp [jsize, render, intChars]
  · intro s
    simp [jsize, render]
  · intro es h
    have := jsizeItems_le es h
    simp [jsize, render]
    omega
  · intro fs h
    have := jsizeFields_le fs h
    simp [jsize, render]
    omega

theorem Json.parse_stringify (j : Json) : Json.parse? (Json.stringify j) = some j := by
  unfold Json.parse? Json.stringify
  have hfuel : jsize j ≤ (render j).length + 1 := le_trans (jsize_le_render j) (by omega)
  have h := parseVal_render j ((render j).length + 1) [] hfuel ndNil
  rw [List.append_nil] at h
  have hdata : (String.mk (render j)).data = render j := rfl
  rw [hdata, h]

theorem drainQ_frozen (script : List Reaction) : ∀ q : List Envelope,
    ∃ consumed unconsumed, script = consumed ++ unconsumed ∧
      drainQ q script true = (q ++ arrivalsOf consumed, true) := by
  induction script with
  | nil => intro q; exact ⟨[], [], rfl, by simp [drainQ, arrivalsOf]⟩
  | cons r rs ih =>
      intro q
      cases q with
      | nil => exact ⟨[], r :: rs, rfl, by simp [drainQ, arrivalsOf]⟩
      | cons e q2 =>
          obtain ⟨c, u, hcu, hdr⟩ := ih (q2 ++ r.arrivals)
          refine ⟨r :: c, u, by simp [hcu], ?_⟩
          simp [drainQ, hdr, arrivalsOf, List.append_assoc]

theorem flowing_queue_empty : ∀ {s : M2State}, Reachable s →
    s.frozen = false → s.frozenEventQ = [] := by
  intro s h
  induction h with
  | init => intro _; rfl
  | msg frame s2 hs ih =>
      intro hfz
      cases hdec : decodeFrame frame with
      | none =>
          have heq : (handleMessage frame s2).1 = s2 := by simp [handleMessage, hdec]
          rw [heq] at hfz ⊢
          exact ih hfz
      | some e =>
          cases hfr : s2.frozen with
          | true =>
              have heq : (handleMessage frame s2).1
                  = { s2 with frozenEventQ := s2.frozenEventQ ++ [e] } := by
                simp [handleMessage, hdec, hfr]
              rw [heq] at hfz
              simp at hfz
              rw [hfr] at hfz
              cases hfz
          | false =>
              have heq : (handleMessage frame s2).1 = s2 := by simp [handleMessage, hdec, hfr]
              rw [heq] at hfz ⊢
              exact ih hfz
  | gate b script s2 hs ih =>
      intro hfz
      cases b with
      | true =>
          have heq : (freeze true script s2).1 = { s2 with frozen := true } := by simp [freeze]
          rw [heq] at hfz
          simp at hfz
      | false =>
          have heq : (freeze false script s2).1
              = ⟨(drainQ s2.frozenEventQ script false).2, []⟩ := by simp [freeze]
          rw [heq]

theorem processFrames_frozen : ∀ (frames : List String) (envs : List Envelope) (s : M2State),
    s.frozen = true → decodeFrames frames = some envs →
    processFrames frames s = (⟨true, s.frozenEventQ ++ envs⟩, []) := by
  intro frames
  induction frames with
  | nil =>
      intro envs s hfz hdec
      simp [decodeFrames] at hdec
      subst hdec
      obtain ⟨fz, q⟩ := s
      simp at hfz
      subst hfz
      simp [processFrames]
  | cons f fs ih =>
      intro envs s hfz hdec
      cases he : decodeFrame f with
      | none => simp [decodeFrames, he] at hdec
      | some e =>
          cases hes : decodeFrames fs with
          | none => simp [decodeFrames, he, hes] at hdec
          | some es =>
              have henv : envs = e :: es := by
                simp [decodeFrames, he, hes] at hdec
                exact hdec.symm
              subst henv
              have hmsg : handleMessage f s
                  = ({ s with frozenEventQ := s.frozenEventQ ++ [e] }, [], none) := by
                simp [handleMessage, he, hfz]
              have hrec := ih es { s with frozenEventQ := s.frozenEventQ ++ [e] }
                (by simp [hfz]) hes
              simp only [processFrames, hmsg, hrec]
              simp [List.append_assoc]

/-- C7: the envelope codec is deterministic and symmetric. For every event
name and every payload representable in the wire format (including the
omitted/undefined payload), decoding the frame produced by sending
(eventName, data) yields an envelope whose event equals eventName and whose
data equals data. -/
theorem codec_roundtrip (event : String) (data : Option Json) :
    decodeFrame (send event data) = some ⟨event, data⟩ := by
  unfold send decodeFrame
  rw [Json.parse_stringify]
  cases data with
  | none => simp [jsGet, lookupLast, jsToDOMString, jsToString]
  | some d => simp [jsGet, lookupLast, jsToDOMString, jsToString]

/-- C2: contrary to the claim, on a tick where a probe is outstanding and
the wall-clock gap since the previous tick exceeds twice the frequency, the
code declares the channel disconnected and invokes reconnect as soon as the
probe is at least `timeout` old (first conjunct), and when the probe is
younger it neither declares failure nor sends any fresh probe (second
conjunct); the claimed treat-as-no-probe re-probe behaviour never happens
on such a tick. -/
theorem backgrounded_tick_disconnects :
    pingPongTick 1000 3000 5000 ⟨1000, 1000, true⟩ = (⟨0, 5000, false⟩, [PingAction.reconnect]) ∧
    pingPongTick 1000 3000 3500 ⟨1000, 1000, true⟩ = (⟨1000, 3500, true⟩, []) := by
  constructor <;> decide

/-- C9 counterexample: a zero frequency and a negative timeout are accepted
by the hook's setup rather than rejected. -/
theorem ping_config_nonpositive_accepted :
    (usePingPongSetup 0 (-1) 0).isSome = true := rfl

/-- C9 amended: the hook performs no validation at all; every frequency and
timeout, non-positive ones included, is accepted and used. -/
theorem ping_config_never_rejected (frequency timeout now : Int) :
    (usePingPongSetup frequency timeout now).isSome = true := rfl

/-- C5: contrary to the claim, the override is dead in the program. The
registered status handler captured the mount-time ignoreOnlineStatus
(false), so after forceOffline a status event carrying online = true sets
the tracked online value back to true (first conjunct evaluates the code on
that failing input, from the hook's initial state); in general the handler
the program registered always adopts the event's online value, while
latency and rate update as claimed (remaining conjuncts). -/
theorem status_override_dead_after_mount :
    mountStatusHandler (forceOffline ⟨false, false, 0, 0⟩) ⟨true, 7, 9⟩ = ⟨true, true, 7, 9⟩ ∧
    (∀ (s : StatusState) (e : StatusEvent), (mountStatusHandler s e).online = e.online) ∧
    (∀ (s : StatusState) (e : StatusEvent),
      (mountStatusHandler s e).latency = e.latency ∧ (mountStatusHandler s e).rate = e.rate) :=
  ⟨rfl, fun _ _ => rfl, fun _ _ => ⟨rfl, rfl⟩⟩

/-- C4: a frame that fails to decode is reported with the parse-error
message and affects only itself: the gate state is unchanged, nothing is
dispatched, and an immediately following valid frame is handled exactly as
it would be from the same state (queued when frozen, dispatched when
flowing). -/
theorem malformed_frame_isolated (s : M2State) (frame frame2 : String) (env : Envelope)
    (hbad : decodeFrame frame = none) (hgood : decodeFrame frame2 = some env) :
    handleMessage frame s = (s, [], some ("Cannot parse message from M2: " ++ frame)) ∧
    handleMessage frame2 (handleMessage frame s).1 =
      (if s.frozen then ({ s with frozenEventQ := s.frozenEventQ ++ [env] }, [], none)
       else (s, [env], none)) := by
  have h1 : handleMessage frame s = (s, [], some ("Cannot parse message from M2: " ++ frame)) := by
    simp [handleMessage, hbad]
  refine ⟨h1, ?_⟩
  rw [h1]
  by_cases hf : s.frozen <;> simp [handleMessage, hgood, hf]

theorem malformed_frame_isolated_witness :
    decodeFrame "(" = none ∧
    decodeFrame (send "pong" none) = some ⟨"pong", none⟩ ∧
    handleMessage "(" ⟨false, []⟩
      = (⟨false, []⟩, [], some ("Cannot parse message from M2: " ++ "(")) ∧
    handleMessage (send "pong" none) (handleMessage "(" ⟨false, []⟩).1 =
      (if (⟨false, []⟩ : M2State).frozen
       then ({ (⟨false, []⟩ : M2State) with
                frozenEventQ := (⟨false, []⟩ : M2State).frozenEventQ ++ [⟨"pong", none⟩] },
             [], none)
       else ((⟨false, []⟩ : M2State), [⟨"pong", none⟩], none)) :=
  ⟨rfl, rfl,
    (malformed_frame_isolated ⟨false, []⟩ "(" (send "pong" none) ⟨"pong", none⟩ rfl rfl).1,
    (malformed_frame_isolated ⟨false, []⟩ "(" (send "pong" none) ⟨"pong", none⟩ rfl rfl).2⟩

/-- C8 counterexample: decode succeeds on a frame whose event field is the
empty string, producing an envelope with an empty event, contrary to the
claimed non-emptiness of the event field after successful decode. -/
theorem decode_succeeds_with_empty_event :
    decodeFrame "\x7b\"event\":\"\"\x7d" = some ⟨"", none⟩ := rfl

/-- C8 amended: when decode fails no envelope is produced for the frame:
the gate state is untouched and nothing is dispatched or queued (the event
field of a successfully decoded envelope is always present but may be
empty). -/
theorem decode_failure_no_envelope (s : M2State) (frame : String)
    (h : decodeFrame frame = none) :
    (handleMessage frame s).1 = s ∧ (handleMessage frame s).2.1 = [] := by
  simp [handleMessage, h]

theorem decode_failure_no_envelope_witness :
    decodeFrame "[" = none ∧
    ((handleMessage "[" ⟨false, []⟩).1 = ⟨false, []⟩ ∧
      (handleMessage "[" ⟨false, []⟩).2.1 = []) :=
  ⟨rfl, decode_failure_no_envelope ⟨false, []⟩ "[" rfl⟩

/-- C1: for envelopes decoded from inbound frames while the freeze gate is
engaged (over the empty queue every engaged reachable state has), nothing
is dispatched on arrival; the single release then dispatches exactly those
envelopes in arrival order and leaves the gate flowing with an empty queue,
so a subscriber to any event name observes exactly the matching envelopes,
in arrival order, with no loss and no duplication. -/
theorem frozen_arrivals_released_in_order (s : M2State) (frames : List String)
    (envs : List Envelope) (name : String)
    (hfz : s.frozen = true) (hq : s.frozenEventQ = [])
    (hdec : decodeFrames frames = some envs) :
    (processFrames frames s).2 = [] ∧
    (freeze false [] (processFrames frames s).1).2 = envs ∧
    (freeze false [] (processFrames frames s).1).1 = ⟨false, []⟩ ∧
    ((processFrames frames s).2 ++ (freeze false [] (processFrames frames s).1).2).filter
        (fun e => e.event = name) = envs.filter (fun e => e.event = name) := by
  have hp := processFrames_frozen frames envs s hfz hdec
  rw [hp, hq]
  simp [freeze, drainQ]

theorem frozen_arrivals_released_in_order_witness :
    decodeFrames [send "a" none, send "b" none] = some [⟨"a", none⟩, ⟨"b", none⟩] ∧
    ((processFrames [send "a" none, send "b" none] ⟨true, []⟩).2 = [] ∧
     (freeze false [] (processFrames [send "a" none, send "b" none] ⟨true, []⟩).1).2
        = [⟨"a", none⟩, ⟨"b", none⟩] ∧
     (freeze false [] (processFrames [send "a" none, send "b" none] ⟨true, []⟩).1).1
        = ⟨false, []⟩ ∧
     ((processFrames [send "a" none, send "b" none] ⟨true, []⟩).2 ++
        (freeze false [] (processFrames [send "a" none, send "b" none] ⟨true, []⟩).1).2).filter
          (fun e => e.event = "a")
        = [(⟨"a", none⟩ : Envelope), ⟨"b", none⟩].filter (fun e => e.event = "a")) :=
  ⟨rfl, frozen_arrivals_released_in_order ⟨true, []⟩ [send "a" none, send "b" none]
      [⟨"a", none⟩, ⟨"b", none⟩] "a" rfl rfl rfl⟩

/-- C6: calling freeze(true) twice in a row yields exactly the state and
dispatches of calling it once, and calling freeze(false) on a reachable
already-flowing gate drains nothing, dispatches nothing, raises no error
and returns the state unchanged. -/
theorem freeze_idempotent_engage_release :
    (∀ s : M2State, freeze true [] (freeze true [] s).1 = freeze true [] s) ∧
    (∀ s : M2State, Reachable s → s.frozen = false → freeze false [] s = (s, [])) := by
  constructor
  · intro s
    rfl
  · intro s hs hfz
    have hq := flowing_queue_empty hs hfz
    obtain ⟨fz, q⟩ := s
    simp at hfz hq
    subst hfz
    subst hq
    simp [freeze, drainQ]

theorem freeze_idempotent_engage_release_witness :
    Reachable ⟨false, []⟩ ∧ freeze false [] ⟨false, []⟩ = (⟨false, []⟩, []) :=
  ⟨Reachable.init, freeze_idempotent_engage_release.2 ⟨false, []⟩ Reachable.init rfl⟩

/-- C10: if the handler of the first envelope dispatched by the drain of a
release re-engages the gate, the drain still runs to completion: the
envelope that triggered the re-engage, every envelope that was in the
frozen queue at that moment, and every envelope the environment appends
while the remaining drain runs (the consumed prefix of the reaction
script) are all dispatched before the release returns, and the call leaves
the queue empty while the gate state is frozen. -/
theorem release_drain_completes_after_reengage (e : Envelope) (q arr : List Envelope)
    (rest : List Reaction) :
    ∃ consumed unconsumed, rest = consumed ++ unconsumed ∧
      freeze false (⟨true, arr⟩ :: rest) ⟨true, e :: q⟩ =
        (⟨true, []⟩, e :: (q ++ arr ++ arrivalsOf consumed)) := by
  obtain ⟨c, u, hcu, hdr⟩ := drainQ_frozen rest (q ++ arr)
  refine ⟨c, u, hcu, ?_⟩
  simp [freeze, drainQ, hdr, List.append_assoc]

/-- C3: contrary to the claim, with frequency 1000 and timeout 3000 under
perfectly regular ticking and no pong ever delivered, the monitor never
declares the channel disconnected and never invokes reconnect: every tick
(the ticks at and after 3000 ms included) only stamps and sends a fresh
ping, because the disconnection branch requires the inter-tick gap to
exceed twice the frequency. -/
theorem regular_ticks_never_disconnect (n : Nat) :
    (regularTicks 1000 3000 n).1 = ⟨(n : Int) * 1000, (n : Int) * 1000, false⟩ ∧
    (regularTicks 1000 3000 n).2 = List.replicate n PingAction.sendPing := by
  induction n with
  | zero => constructor <;> simp [regularTicks]
  | succ n ih =>
      simp only [regularTicks, ih.1, ih.2]
      unfold pingPongTick
      split
      · next h =>
          exfalso
          obtain ⟨h1, h2⟩ := h
          push_cast at h2
          omega
      · next h =>
          constructor
          · push_cast
            rfl
          · simp [List.replicate_succ']
